import Mathlib

/-!
Verification of the Flask application core (src/src/flask/app.py) and of the
routing / context-stack design it belongs to.

The first part embeds the code that is present in the repository source:
the `setupmethod` decorator, the constructor's converter table, the
`instance_path` handling and the `_got_first_request` initialisation.
Later parts model the routing engine and the context stacks, which the
repository excerpt only references, from the specification.
-/

namespace Flask

/-! ## Setup-method guarding (src/src/flask/app.py, lines 55-73 and 221) -/

/-- The registration state carried by a `Flask` application object: the
`debug` flag, the `_got_first_request` flag, and the tables that the six
setup-method-wrapped registration operations mutate.  Hooks and rules are
identified by natural numbers. -/
structure AppState where
  debug : Bool
  gotFirstRequest : Bool
  urlRules : List Nat
  beforeRequestFuncs : List Nat
  afterRequestFuncs : List Nat
  teardownRequestFuncs : List Nat
  teardownAppcontextFuncs : List Nat
  errorHandlers : List Nat
deriving DecidableEq, Repr

/-- The error raised by `setupmethod`'s guard (an `AssertionError` in the
source). -/
inductive SetupError where
  | setupAfterFirstRequest
deriving DecidableEq, Repr

/-- The six registration operations that `app.py` wraps with `setupmethod`. -/
inductive SetupOp where
  | addUrlRule (rule : Nat)
  | beforeRequest (hook : Nat)
  | afterRequest (hook : Nat)
  | teardownRequest (hook : Nat)
  | teardownAppcontext (hook : Nat)
  | errorhandler (hook : Nat)
deriving DecidableEq, Repr

/-- The registration each operation performs when the guard lets it through:
it appends the registered item to the corresponding table. -/
def applyOp (op : SetupOp) (s : AppState) : AppState :=
  match op with
  | .addUrlRule r => { s with urlRules := s.urlRules ++ [r] }
  | .beforeRequest h => { s with beforeRequestFuncs := s.beforeRequestFuncs ++ [h] }
  | .afterRequest h => { s with afterRequestFuncs := s.afterRequestFuncs ++ [h] }
  | .teardownRequest h => { s with teardownRequestFuncs := s.teardownRequestFuncs ++ [h] }
  | .teardownAppcontext h =>
      { s with teardownAppcontextFuncs := s.teardownAppcontextFuncs ++ [h] }
  | .errorhandler h => { s with errorHandlers := s.errorHandlers ++ [h] }

/-- `setupmethod` (app.py lines 55-73): the wrapper raises an
`AssertionError` when `self.debug and self._got_first_request`, and
otherwise calls the wrapped registration. -/
def callSetup (op : SetupOp) (s : AppState) : Except SetupError AppState :=
  if s.debug && s.gotFirstRequest then
    Except.error SetupError.setupAfterFirstRequest
  else
    Except.ok (applyOp op s)

/-- The registration state of a freshly constructed application
(app.py lines 195-222): all tables empty and `_got_first_request = False`;
the `debug` flag comes from the environment (`get_debug_flag`). -/
def initState (debug : Bool) : AppState :=
  { debug := debug
    gotFirstRequest := false
    urlRules := []
    beforeRequestFuncs := []
    afterRequestFuncs := []
    teardownRequestFuncs := []
    teardownAppcontextFuncs := []
    errorHandlers := [] }

/-! ## The constructor's converter table (src/src/flask/app.py, lines 200-206) -/

/-- The converter classes installed by `Flask.__init__`. -/
inductive ConverterClass where
  | unicodeConverter
  | anyConverter
  | pathConverter
  | integerConverter
  | floatConverter
  | uuidConverter
deriving DecidableEq, Repr

/-- The converter table assembled by `Flask.__init__` (app.py lines 200-206),
one entry per assignment, in source order. -/
def initConverters : List (String × ConverterClass) :=
  [("default", ConverterClass.unicodeConverter),
   ("string", ConverterClass.unicodeConverter),
   ("any", ConverterClass.anyConverter),
   ("path", ConverterClass.pathConverter),
   ("int", ConverterClass.integerConverter),
   ("float", ConverterClass.floatConverter),
   ("uuid", ConverterClass.uuidConverter)]

/-- Lookup of a converter by name in the table. -/
def lookupConverter (name : String) : Option ConverterClass :=
  (initConverters.find? (fun e => e.fst == name)).map Prod.snd

/-! ## Instance path handling (src/src/flask/app.py, lines 183-191, 257-270) -/

/-- A POSIX path is absolute when it starts with a slash
(`os.path.isabs`). -/
def isAbsPath (p : String) : Bool :=
  match p.data with
  | [] => false
  | c :: _ => c == '/'

/-- `os.path.join a b` for the two-argument POSIX case: if `b` is absolute
it replaces `a`, otherwise it is appended after a separator. -/
def joinPath (a b : String) : String :=
  if isAbsPath b then b else a ++ "/" ++ b

/-- `os.path.abspath` relative to the (absolute) working directory `cwd`:
an absolute path is kept, a relative one is resolved against `cwd`. -/
def abspath (cwd p : String) : String :=
  if isAbsPath p then p else cwd ++ "/" ++ p

/-- `Flask.auto_find_instance_path` (app.py lines 257-270): `find_package`
yields `(pre, packagePath)`; with no installation prefix the result is
`abspath(join(packagePath, "instance"))`, otherwise
`abspath(join(pre, "var", name ++ "-instance"))`. -/
def auto_find_instance_path (cwd : String) (pre : Option String)
    (packagePath name : String) : String :=
  match pre with
  | none => abspath cwd (joinPath packagePath "instance")
  | some p => abspath cwd (joinPath (joinPath p "var") (name ++ "-instance"))

/-- The `instance_path` logic of `Flask.__init__` (app.py lines 183-191):
`None` is replaced by `auto_find_instance_path()`; a provided relative path
raises `ValueError`; a provided absolute path is kept. -/
def initInstancePath (cwd : String) (pre : Option String)
    (packagePath name : String) (instance_path : Option String) :
    Except String String :=
  match instance_path with
  | none => Except.ok (auto_find_instance_path cwd pre packagePath name)
  | some p =>
      if isAbsPath p then Except.ok p
      else Except.error
        "If an instance path is provided it must be absolute. A relative path was given instead."

/-! ## Context stacks

The repository excerpt imports `AppContext`, `RequestContext`,
`_app_ctx_stack` and `_request_ctx_stack` from `flask.ctx` and
`flask.globals`, whose sources are not part of the excerpt; the stack
machinery below is modelled from the specification. -/

/-- Modelled from the spec: an Application Context (`flask.ctx.AppContext`
is missing from the excerpt).  Each push creates a new context instance,
identified by the owning application and a fresh context id. -/
structure AppCtx where
  appId : Nat
  ctxId : Nat
deriving DecidableEq, Repr

/-- Modelled from the spec: a Request Context (`flask.ctx.RequestContext`
is missing from the excerpt), identified by its request and a fresh
context id. -/
structure ReqCtx where
  requestId : Nat
  ctxId : Nat
deriving DecidableEq, Repr

/-- Modelled from the spec: the context-missing failure raised by "current"
accessors on an empty stack (`RuntimeError("Working outside of ...
context")` in the missing `flask.globals`). -/
inductive ContextMissingError where
  | workingOutsideContext
deriving DecidableEq, Repr

/-- Modelled from the spec: pushing onto the calling execution unit's
context stack (the top of the stack is the head of the list). -/
def pushCtx {α : Type} (c : α) (s : List α) : List α := c :: s

/-- Modelled from the spec: popping the calling execution unit's context
stack. -/
def popCtx {α : Type} : List α → List α
  | [] => []
  | _ :: rest => rest

/-- Modelled from the spec: a "current" accessor proxies to the top of the
respective stack and fails with a `ContextMissingError` when it is empty. -/
def currentTop {α : Type} : List α → Except ContextMissingError α
  | [] => Except.error ContextMissingError.workingOutsideContext
  | c :: _ => Except.ok c

/-- Modelled from the spec: the `current_app` accessor over the application
context stack. -/
def current_app (s : List AppCtx) : Except ContextMissingError AppCtx :=
  currentTop s

/-- Modelled from the spec: the `current_request` accessor over the request
context stack. -/
def current_request (s : List ReqCtx) : Except ContextMissingError ReqCtx :=
  currentTop s

/-- Pushing a list of contexts in order (first element pushed first). -/
def pushList {α : Type} : List α → List α → List α
  | [], s => s
  | c :: cs, s => pushList cs (pushCtx c s)

/-- Popping `n` times. -/
def popN {α : Type} : Nat → List α → List α
  | 0, s => s
  | n + 1, s => popN n (popCtx s)

/-! ## Teardown hooks (modelled from the spec) -/

/-- Modelled from the spec: a registered teardown hook (the hook tables of
`flask.ctx` are missing from the excerpt), identified by `id`; `fails`
records the error the hook itself raises when invoked, if any. -/
structure TeardownHook where
  id : Nat
  fails : Option Nat
deriving DecidableEq, Repr

/-- Modelled from the spec: running the registered teardown hooks of a
context on pop, in registration order; a hook's own error is collected
(logged/surfaced) and must not prevent the remaining hooks from running.
Returns the ids of the hooks that ran, in execution order, paired with the
errors raised inside hooks. -/
def runTeardowns : List TeardownHook → List Nat × List Nat
  | [] => ([], [])
  | h :: rest =>
      let r := runTeardowns rest
      (h.id :: r.fst,
       match h.fails with
       | none => r.snd
       | some e => e :: r.snd)

/-- The observable outcome of dispatching a request whose handler raised:
which teardown hooks ran on each context pop, the errors the hooks
themselves raised, and the exception that propagates afterwards. -/
structure ErrorDispatch where
  ranRequestTeardowns : List Nat
  ranAppTeardowns : List Nat
  hookErrors : List Nat
  propagated : Nat
deriving DecidableEq, Repr

/-- Modelled from the spec: the dispatcher's error path (the dispatch loop
of `Flask.wsgi_app` / `flask.ctx` is missing from the excerpt).  When the
handler raises exception `e`, popping the Request Context runs the request
teardown hooks, popping the (implicitly owned) Application Context runs the
appcontext teardown hooks, and only then does `e` propagate or get
converted to a response. -/
def dispatchError (reqHooks appHooks : List TeardownHook) (e : Nat) : ErrorDispatch :=
  let r := runTeardowns reqHooks
  let a := runTeardowns appHooks
  { ranRequestTeardowns := r.fst
    ranAppTeardowns := a.fst
    hookErrors := r.snd ++ a.snd
    propagated := e }

/-! ## The routing engine

The Rule Map (`werkzeug.routing`, referenced through `Map()` and the
converter classes in app.py lines 197-206) is not part of the source
excerpt; the matcher below is modelled from the specification, with the
string, integer and greedy-path converter variants that the claims
exercise. -/

/-- Modelled from the spec: the per-segment converter variants exercised by
the claims — Integer (digit sequences) and String (any non-slash,
non-empty sequence); the greedy Path converter is modelled as an optional
trailing variable of a rule. -/
inductive Conv where
  | intConv
  | strConv
deriving DecidableEq, Repr

/-- A typed value extracted by a converter. -/
inductive Val where
  | natV (n : Nat)
  | strV (s : String)
deriving DecidableEq, Repr

/-- Modelled from the spec: one compiled segment of a rule pattern —
either a literal or a typed variable. -/
inductive Seg where
  | static (lit : String)
  | var (name : String) (conv : Conv)
deriving DecidableEq, Repr

/-- Modelled from the spec: a compiled Rule — ordered segments, an optional
trailing greedy-path variable, a trailing-slash (branch) flag, the
endpoint, and the allowed methods. -/
structure Rule where
  segs : List Seg
  tail : Option String
  slash : Bool
  endpoint : String
  methods : List String
deriving DecidableEq, Repr

/-- The digit character for a value below ten. -/
def digitChar (d : Nat) : Char := Char.ofNat (48 + d % 10)

/-- The numeric value of a decimal digit character. -/
def digitVal (c : Char) : Option Nat :=
  if c.isDigit then some (c.toNat - 48) else none

/-- Accumulating decimal parser over characters. -/
def parseNatCore : List Char → Nat → Option Nat
  | [], acc => some acc
  | c :: cs, acc =>
      match digitVal c with
      | some d => parseNatCore cs (acc * 10 + d)
      | none => none

/-- Modelled from the spec: the Integer converter's parse — a non-empty
digit sequence (leading zeros allowed) read as a decimal number. -/
def parseNatChars (p : List Char) : Option Nat :=
  if p = [] then none else parseNatCore p 0

/-- Decimal digits of a number, most significant first, accumulated with
explicit fuel (any fuel at least the number itself is enough). -/
def natDigitsGo : Nat → Nat → List Char → List Char
  | 0, n, acc => digitChar (n % 10) :: acc
  | fuel + 1, n, acc =>
      if n < 10 then digitChar n :: acc
      else natDigitsGo fuel (n / 10) (digitChar (n % 10) :: acc)

/-- Modelled from the spec: the Integer converter's `to_url` — canonical
decimal serialization, without leading zeros. -/
def natDigits (n : Nat) : List Char := natDigitsGo n n []

/-- Modelled from the spec: a converter's parse on one raw path segment. -/
def convParseChars : Conv → List Char → Option Val
  | Conv.intConv, p => (parseNatChars p).map Val.natV
  | Conv.strConv, p => if p = [] then none else some (Val.strV (String.mk p))

/-- Modelled from the spec: a converter's `to_url` on an accepted value
(`none` when the value is not accepted by the converter). -/
def convToUrlChars : Conv → Val → Option (List Char)
  | Conv.intConv, Val.natV n => some (natDigits n)
  | Conv.strConv, Val.strV s =>
      if s.data ≠ [] ∧ s.data.all (fun c => c ≠ '/') then some s.data else none
  | _, _ => none

/-- Splitting a character sequence at every slash. -/
def splitSlash : List Char → List (List Char)
  | [] => [[]]
  | c :: cs =>
      let r := splitSlash cs
      if c = '/' then [] :: r
      else
        match r with
        | [] => [[c]]
        | p :: ps => (c :: p) :: ps

/-- Joining path components with slashes. -/
def joinPartsC : List (List Char) → List Char
  | [] => []
  | [p] => p
  | p :: rest => p ++ '/' :: joinPartsC rest

/-- A parsed request path: its slash-separated components and whether it
carried a trailing slash. -/
structure PathReq where
  segs : List (List Char)
  slash : Bool
deriving DecidableEq, Repr

/-- Parsing a request path: strip the leading slash, split at slashes; an
empty final component marks a trailing slash. -/
def parsePathChars (cs : List Char) : PathReq :=
  let body :=
    match cs with
    | '/' :: rest => rest
    | other => other
  let parts := splitSlash body
  if parts.getLast? = some ([] : List Char) then
    { segs := parts.dropLast, slash := true }
  else
    { segs := parts, slash := false }

/-- Parsing a request path given as a string. -/
def parsePath (s : String) : PathReq := parsePathChars s.data

/-- Rendering path components (and a trailing-slash flag) back into a
path. -/
def renderPathC (parts : List (List Char)) (slash : Bool) : List Char :=
  match parts with
  | [] => ['/']
  | _ => '/' :: (joinPartsC parts ++ (if slash then ['/'] else []))

/-- Modelled from the spec: matching the compiled segments of a rule
against the path components, extracting converter-typed parameters;
converter failure rejects the rule (it is not a hard error). -/
def matchSegs : List Seg → List (List Char) → Option (List (String × Val))
  | [], [] => some []
  | Seg.static lit :: rest, p :: ps =>
      if lit.data = p then matchSegs rest ps else none
  | Seg.var name conv :: rest, p :: ps =>
      match convParseChars conv p with
      | some v => (matchSegs rest ps).map (fun vs => (name, v) :: vs)
      | none => none
  | _, _ => none

/-- Modelled from the spec: matching one rule against a parsed path —
segments, then the greedy trailing path variable if the rule has one, with
the trailing-slash flags required to agree. -/
def matchRule (r : Rule) (p : PathReq) : Option (List (String × Val)) :=
  match r.tail with
  | none => if r.slash = p.slash then matchSegs r.segs p.segs else none
  | some name =>
      if r.slash = p.slash ∧ r.segs.length < p.segs.length then
        match matchSegs r.segs (p.segs.take r.segs.length) with
        | some vs =>
            some (vs ++
              [(name, Val.strV (String.mk (joinPartsC (p.segs.drop r.segs.length))))])
        | none => none
      else none

/-- Modelled from the spec: a rule "matches up to a trailing-slash
difference" when flipping the request's trailing-slash flag to the rule's
makes it match. -/
def slashRedirect (r : Rule) (p : PathReq) : Bool :=
  decide (r.slash ≠ p.slash) && (matchRule r { p with slash := r.slash }).isSome

/-- The corrected path a trailing-slash redirect points at. -/
def correctedPath (r : Rule) (p : PathReq) : String :=
  String.mk (renderPathC p.segs r.slash)

/-- Modelled from the spec: the specificity weight of one segment — static
below typed variables, Integer (more constrained) below String. -/
def segWeight : Seg → Nat
  | Seg.static _ => 0
  | Seg.var _ Conv.intConv => 1
  | Seg.var _ Conv.strConv => 2

/-- Modelled from the spec: the specificity weight of a rule, compared
lexicographically; the greedy path variable ranks below every typed
variable. -/
def ruleWeight (r : Rule) : List Nat :=
  r.segs.map segWeight ++ (match r.tail with | none => [] | some _ => [3])

/-- Lexicographic order on weights: `true` when `a` ranks at least as
specific as `b`. -/
def weightLe : List Nat → List Nat → Bool
  | [], _ => true
  | _ :: _, [] => false
  | a :: as2, b :: bs2 =>
      if a < b then true
      else if b < a then false
      else weightLe as2 bs2

/-- Strictly higher specificity. -/
def weightLt (a b : List Nat) : Bool := weightLe a b && !weightLe b a

/-- Stable insertion of a rule into a specificity-sorted list: among equal
weights, the rule being inserted (registered earlier) comes first. -/
def insertRule (r : Rule) : List Rule → List Rule
  | [] => [r]
  | y :: ys =>
      if weightLe (ruleWeight r) (ruleWeight y) then r :: y :: ys
      else y :: insertRule r ys

/-- Modelled from the spec: the Rule Map's specificity ordering — a stable
sort by weight, ties preserving registration order. -/
def sortRules : List Rule → List Rule
  | [] => []
  | r :: rest => insertRule r (sortRules rest)

/-- The four outcomes of `bind`. -/
inductive BindResult where
  | matched (endpoint : String) (params : List (String × Val))
  | methodNotAllowed (allowed : List String)
  | redirectRequired (location : String)
  | notFound
deriving DecidableEq, Repr

/-- Accumulating the allowed-method set without duplicates. -/
def mergeMethods (allowed ms : List String) : List String :=
  allowed ++ ms.filter (fun x => !allowed.contains x)

/-- Modelled from the spec: the bind loop — rules are attempted in
specificity order; the first full match wins; a rule matching the path but
not the method records its methods as "method not allowed" candidates; a
rule matching up to a trailing-slash difference records a redirect; at the
end a non-empty allowed set yields MethodNotAllowed, else a recorded
redirect yields RedirectRequired, else NotFound. -/
def bindSorted : List Rule → PathReq → String → List String → Option String → BindResult
  | [], _, _, allowed, redir =>
      match allowed with
      | [] =>
          match redir with
          | some loc => BindResult.redirectRequired loc
          | none => BindResult.notFound
      | _ => BindResult.methodNotAllowed allowed
  | r :: rest, p, m, allowed, redir =>
      match matchRule r p with
      | some params =>
          if r.methods.contains m then BindResult.matched r.endpoint params
          else bindSorted rest p m (mergeMethods allowed r.methods) redir
      | none =>
          if slashRedirect r p then
            bindSorted rest p m allowed
              (match redir with
               | some loc => some loc
               | none => some (correctedPath r p))
          else bindSorted rest p m allowed redir

/-- Modelled from the spec: `bind` — sort the registered rules by
specificity and run the bind loop on the parsed path. -/
def bind (rules : List Rule) (path m : String) : BindResult :=
  bindSorted (sortRules rules) (parsePath path) m [] none

/-! ## The rules of the specification's scenarios -/

/-- The rule `/users/<int:id>` of the spec's scenarios. -/
def usersIntRule : Rule :=
  { segs := [Seg.static "users", Seg.var "id" Conv.intConv], tail := none,
    slash := false, endpoint := "user_by_id", methods := ["GET"] }

/-- The rule `/users/<name>` of the spec's scenarios. -/
def usersNameRule : Rule :=
  { segs := [Seg.static "users", Seg.var "name" Conv.strConv], tail := none,
    slash := false, endpoint := "user_by_name", methods := ["GET"] }

/-- The GET-only rule `/item` of the spec's scenarios. -/
def itemRule : Rule :=
  { segs := [Seg.static "item"], tail := none, slash := false,
    endpoint := "item", methods := ["GET"] }

/-- The trailing-slash rule `/shop/` of the spec's scenarios. -/
def shopRule : Rule :=
  { segs := [Seg.static "shop"], tail := none, slash := true,
    endpoint := "shop", methods := ["GET"] }

/-! ## URL building (modelled from the spec) -/

/-- The variable names of a rule's segments, in order. -/
def varNames : List Seg → List String
  | [] => []
  | Seg.static _ :: rest => varNames rest
  | Seg.var n _ :: rest => n :: varNames rest

/-- Modelled from the spec: a value accepted by the greedy path converter —
no empty slash-separated component (so no leading, trailing or doubled
slash, and not the empty string). -/
def acceptPathVal (s : String) : Bool :=
  (splitSlash s.data).all (fun p => !p.isEmpty)

/-- Modelled from the spec: serializing the values of a rule's variable
segments into path components with each segment's converter (`none` when a
value is not accepted by its converter). -/
def buildSegs : List Seg → List Val → Option (List (List Char))
  | [], [] => some []
  | Seg.static lit :: rest, vs =>
      (buildSegs rest vs).map (fun ps => lit.data :: ps)
  | Seg.var _ conv :: rest, v :: vs =>
      match convToUrlChars conv v with
      | some s1 => (buildSegs rest vs).map (fun ps => s1 :: ps)
      | none => none
  | _, _ => none

/-- Modelled from the spec: URL reversal (`build`) for one rule — serialize
every variable value with its converter and join the components into a
path; a rule with a greedy path tail additionally takes the path value
`pv`. -/
def build (r : Rule) (vs : List Val) (pv : Option String) : Option String :=
  match r.tail, pv with
  | none, none =>
      (buildSegs r.segs vs).map (fun parts => String.mk (renderPathC parts r.slash))
  | some _, some s =>
      if acceptPathVal s then
        (buildSegs r.segs vs).map (fun parts =>
          String.mk (renderPathC (parts ++ splitSlash s.data) r.slash))
      else none
  | _, _ => none

/-- The parameter list `bind` should extract back after a `build` with the
given values: each variable name paired with its value, the trailing path
variable last. -/
def expectedParams (r : Rule) (vs : List Val) (pv : Option String) :
    List (String × Val) :=
  (varNames r.segs).zip vs ++
    (match r.tail, pv with
     | some n, some s => [(n, Val.strV s)]
     | _, _ => [])

/-- A well-formed compiled segment: static literals are non-empty and
slash-free. -/
def segWF : Seg → Bool
  | Seg.static lit => !lit.data.isEmpty && lit.data.all (fun c => c != '/')
  | Seg.var _ _ => true

/-- A well-formed compiled rule: every segment is well formed, and the
rule with no segments and no tail is the root rule `/` (a branch rule,
i.e. trailing slash). -/
def wellFormedRule (r : Rule) : Bool :=
  r.segs.all segWF &&
    (match r.segs, r.tail with
     | [], none => r.slash
     | _, _ => true)

/-! ## Theorems about the embedded source -/

theorem append_isAbs (a b : String) (h : isAbsPath a = true) :
    isAbsPath (a ++ b) = true := by
  unfold isAbsPath at h ⊢
  rw [String.data_append]
  cases hd : a.data with
  | nil => rw [hd] at h; simp at h
  | cons c cs => rw [hd] at h; simpa using h

theorem abspath_isAbs (cwd p : String) (h : isAbsPath cwd = true) :
    isAbsPath (abspath cwd p) = true := by
  unfold abspath
  by_cases hp : isAbsPath p
  · simp [hp]
  · simp only [hp, if_false, Bool.false_eq_true]
    exact append_isAbs _ _ (append_isAbs _ _ h)

theorem auto_find_isAbs (cwd : String) (pre : Option String)
    (packagePath name : String) (h : isAbsPath cwd = true) :
    isAbsPath (auto_find_instance_path cwd pre packagePath name) = true := by
  cases pre with
  | none => exact abspath_isAbs _ _ h
  | some p => exact abspath_isAbs _ _ h

/-- C1: a registration operation wrapped by `setupmethod` (add_url_rule,
before_request, after_request, teardown_request, teardown_appcontext,
errorhandler) raises the setup `AssertionError` if and only if the
application is in debug mode and `_got_first_request` is true; otherwise
the call proceeds and performs the registration. -/
theorem setupmethod_guard (op : SetupOp) (s : AppState) :
    (callSetup op s = Except.error SetupError.setupAfterFirstRequest ↔
      s.debug = true ∧ s.gotFirstRequest = true)
    ∧ (¬(s.debug = true ∧ s.gotFirstRequest = true) →
      callSetup op s = Except.ok (applyOp op s)) := by
  cases hd : s.debug <;> cases hg : s.gotFirstRequest <;>
    simp [callSetup, hd, hg]

/-- Witness for C1 at a concrete state: with `debug = true` but no request
dispatched yet, a `before_request` registration goes through. -/
theorem setupmethod_guard_witness :
    callSetup (SetupOp.beforeRequest 7) (initState true) =
      Except.ok (applyOp (SetupOp.beforeRequest 7) (initState true)) :=
  (setupmethod_guard (SetupOp.beforeRequest 7) (initState true)).2 (by decide)

/-- C10: a freshly constructed application has `_got_first_request = False`,
so every setupmethod-wrapped registration call on it succeeds and never
raises the setup `AssertionError`, whatever the debug flag. -/
theorem got_first_request_init (debug : Bool) :
    (initState debug).gotFirstRequest = false
    ∧ ∀ op : SetupOp,
        callSetup op (initState debug) = Except.ok (applyOp op (initState debug)) := by
  refine ⟨rfl, fun op => ?_⟩
  cases debug <;> rfl

/-- C8: after construction the converter table holds exactly the names
"default", "string", "any", "path", "int", "float", "uuid", and "default"
and "string" are bound to the same Unicode converter while "any", "path",
"int", "float", "uuid" cover the remaining converter variants. -/
theorem init_converter_table :
    initConverters.map Prod.fst =
      ["default", "string", "any", "path", "int", "float", "uuid"]
    ∧ lookupConverter "default" = some ConverterClass.unicodeConverter
    ∧ lookupConverter "string" = some ConverterClass.unicodeConverter
    ∧ lookupConverter "any" = some ConverterClass.anyConverter
    ∧ lookupConverter "path" = some ConverterClass.pathConverter
    ∧ lookupConverter "int" = some ConverterClass.integerConverter
    ∧ lookupConverter "float" = some ConverterClass.floatConverter
    ∧ lookupConverter "uuid" = some ConverterClass.uuidConverter := by
  decide

/-- C9: the constructor's instance-path handling fails with a `ValueError`
exactly when a non-absolute `instance_path` is provided; on every
successful construction `self.instance_path` is set and absolute (in the
`None` case it comes from `auto_find_instance_path`). -/
theorem instance_path_init (cwd : String) (pre : Option String)
    (packagePath name : String) (ip : Option String)
    (hcwd : isAbsPath cwd = true) :
    ((∃ e, initInstancePath cwd pre packagePath name ip = Except.error e) ↔
      ∃ p, ip = some p ∧ isAbsPath p = false)
    ∧ ∀ q, initInstancePath cwd pre packagePath name ip = Except.ok q →
        isAbsPath q = true := by
  cases ip with
  | none =>
      constructor
      · constructor
        · rintro ⟨e, he⟩
          simp [initInstancePath] at he
        · rintro ⟨p, hp, _⟩
          cases hp
      · intro q hq
        simp only [initInstancePath] at hq
        cases hq
        exact auto_find_isAbs cwd pre packagePath name hcwd
  | some p =>
      by_cases hab : isAbsPath p = true
      · constructor
        · constructor
          · rintro ⟨e, he⟩
            simp [initInstancePath, hab] at he
          · rintro ⟨p2, hp2, habs2⟩
            cases hp2
            rw [hab] at habs2
            cases habs2
        · intro q hq
          simp only [initInstancePath, hab, if_true] at hq
          cases hq
          exact hab
      · constructor
        · constructor
          · intro _
            exact ⟨p, rfl, by simpa using hab⟩
          · rintro ⟨p2, hp2, habs2⟩
            cases hp2
            refine ⟨"If an instance path is provided it must be absolute. A relative path was given instead.", ?_⟩
            simp [initInstancePath, habs2]
        · intro q hq
          simp [initInstancePath, hab] at hq

/-- Witness for C9: with an absolute working directory, providing the
relative instance path "rel" makes construction fail. -/
theorem instance_path_init_witness :
    (∃ e, initInstancePath "/home" none "pkg" "app" (some "rel") = Except.error e) :=
  (instance_path_init "/home" none "pkg" "app" (some "rel") (by decide)).1.2
    ⟨"rel", rfl, by decide⟩

theorem pushList_eq_reverse_append {α : Type} (cs s : List α) :
    pushList cs s = cs.reverse ++ s := by
  induction cs generalizing s with
  | nil => rfl
  | cons c cs ih =>
      simp only [pushList, pushCtx, ih, List.reverse_cons, List.append_assoc,
        List.singleton_append]

theorem popN_length_append {α : Type} (l s : List α) :
    popN l.length (l ++ s) = s := by
  induction l with
  | nil => rfl
  | cons c l ih => simpa [popN, popCtx] using ih

theorem currentTop_pushList_take {α : Type} (cs : List α) (s : List α)
    (i : Nat) (h : i < cs.length) :
    currentTop (pushList (cs.take (i + 1)) s) = Except.ok (cs.get ⟨i, h⟩) := by
  induction cs generalizing i s with
  | nil => exact absurd h (Nat.not_lt_zero i)
  | cons c cs ih =>
      cases i with
      | zero => rfl
      | succ i =>
          simpa [List.take, pushList, pushCtx] using
            ih (pushCtx c s) i (Nat.lt_of_succ_lt_succ h)

theorem popN_pushList_take {α : Type} (cs : List α) (i : Nat) :
    popN (cs.length - (i + 1)) (pushList cs []) = pushList (cs.take (i + 1)) [] := by
  rw [pushList_eq_reverse_append, pushList_eq_reverse_append]
  have hsplit : cs.reverse = (cs.drop (i + 1)).reverse ++ (cs.take (i + 1)).reverse := by
    rw [← List.reverse_append, List.take_append_drop]
  rw [hsplit]
  have hlen : cs.length - (i + 1) = (cs.drop (i + 1)).reverse.length := by
    simp [List.length_reverse, List.length_drop]
  rw [hlen]
  simpa using popN_length_append (cs.drop (i + 1)).reverse (cs.take (i + 1)).reverse

/-- C3: pushing N application contexts and then popping N times returns the
execution unit's stack to Empty; while the i-th pushed context is on top —
right after the i-th push, and again after the contexts above it have been
popped, just before the i-th pop — `current_app` returns exactly the i-th
pushed context. -/
theorem ctx_nesting (cs : List AppCtx) :
    popN cs.length (pushList cs []) = ([] : List AppCtx)
    ∧ (∀ i (h : i < cs.length),
        current_app (pushList (cs.take (i + 1)) []) = Except.ok (cs.get ⟨i, h⟩))
    ∧ (∀ i (h : i < cs.length),
        current_app (popN (cs.length - (i + 1)) (pushList cs []))
          = Except.ok (cs.get ⟨i, h⟩)) := by
  refine ⟨?_, fun i h => currentTop_pushList_take cs [] i h, fun i h => ?_⟩
  · rw [pushList_eq_reverse_append]
    have := popN_length_append cs.reverse ([] : List AppCtx)
    simpa [List.length_reverse] using this
  · rw [popN_pushList_take cs i]
    exact currentTop_pushList_take cs [] i h

/-- Witness for C3 with two pushed contexts: after push 1 the current app is
the first context, after push 2 it is the second, one pop later it is the
first again, and two pops return the stack to Empty. -/
theorem ctx_nesting_witness :
    popN 2 (pushList [AppCtx.mk 1 1, AppCtx.mk 1 2] []) = ([] : List AppCtx)
    ∧ current_app (pushList ([AppCtx.mk 1 1, AppCtx.mk 1 2].take 1) [])
        = Except.ok (AppCtx.mk 1 1)
    ∧ current_app (pushList ([AppCtx.mk 1 1, AppCtx.mk 1 2].take 2) [])
        = Except.ok (AppCtx.mk 1 2)
    ∧ current_app (popN 1 (pushList [AppCtx.mk 1 1, AppCtx.mk 1 2] []))
        = Except.ok (AppCtx.mk 1 1) :=
  ⟨(ctx_nesting [AppCtx.mk 1 1, AppCtx.mk 1 2]).1,
   (ctx_nesting [AppCtx.mk 1 1, AppCtx.mk 1 2]).2.1 0 (by decide),
   (ctx_nesting [AppCtx.mk 1 1, AppCtx.mk 1 2]).2.1 1 (by decide),
   (ctx_nesting [AppCtx.mk 1 1, AppCtx.mk 1 2]).2.2 0 (by decide)⟩

/-- C4: `current_app` (resp. `current_request`) fails with a
`ContextMissingError` exactly when the calling unit's application (resp.
request) context stack is empty; a successful access returns a context
that is actually on the stack, never a silent default. -/
theorem context_missing (s : List AppCtx) (t : List ReqCtx) :
    (current_app s = Except.error ContextMissingError.workingOutsideContext ↔ s = [])
    ∧ (current_request t = Except.error ContextMissingError.workingOutsideContext ↔ t = [])
    ∧ (∀ c, current_app s = Except.ok c → c ∈ s)
    ∧ (∀ r, current_request t = Except.ok r → r ∈ t) := by
  refine ⟨?_, ?_, ?_, ?_⟩
  · cases s <;> simp [current_app, currentTop]
  · cases t <;> simp [current_request, currentTop]
  · intro c hc
    cases s with
    | nil => cases hc
    | cons x xs => cases hc; exact List.mem_cons_self _ _
  · intro r hr
    cases t with
    | nil => cases hr
    | cons x xs => cases hr; exact List.mem_cons_self _ _

/-- Witness for C4: on empty stacks both accessors fail with the
context-missing error, and on a one-element stack `current_app` returns
that pushed context. -/
theorem context_missing_witness :
    current_app [] = Except.error ContextMissingError.workingOutsideContext
    ∧ current_request [] = Except.error ContextMissingError.workingOutsideContext
    ∧ AppCtx.mk 1 1 ∈ [AppCtx.mk 1 1] :=
  ⟨(context_missing [] []).1.mpr rfl,
   (context_missing [] []).2.1.mpr rfl,
   (context_missing [AppCtx.mk 1 1] []).2.2.1 (AppCtx.mk 1 1) rfl⟩

theorem runTeardowns_fst (hooks : List TeardownHook) :
    (runTeardowns hooks).fst = hooks.map TeardownHook.id := by
  induction hooks with
  | nil => rfl
  | cons h rest ih => simp [runTeardowns, ih]

/-- C2: when the handler raises, every registered teardown hook of both the
Request Context and the Application Context runs exactly once, in
registration order — whatever errors the hooks themselves raise — and the
handler's exception still propagates afterwards. -/
theorem teardown_guarantee (reqHooks appHooks : List TeardownHook) (e : Nat) :
    (dispatchError reqHooks appHooks e).ranRequestTeardowns
        = reqHooks.map TeardownHook.id
    ∧ (dispatchError reqHooks appHooks e).ranAppTeardowns
        = appHooks.map TeardownHook.id
    ∧ (dispatchError reqHooks appHooks e).propagated = e :=
  ⟨runTeardowns_fst reqHooks, runTeardowns_fst appHooks, rfl⟩

theorem weightLt_le (a b : List Nat) (h : weightLt a b = true) :
    weightLe a b = true := by
  simp only [weightLt, Bool.and_eq_true, Bool.not_eq_true'] at h
  exact h.1

theorem weightLt_not_ge (a b : List Nat) (h : weightLt a b = true) :
    weightLe b a = false := by
  simp only [weightLt, Bool.and_eq_true, Bool.not_eq_true'] at h
  exact h.2

/-- C5: across two registered rules whose shapes overlap on the request
path, `bind` returns the result of the strictly more specific rule
whichever way the two were registered; in particular with
`/users/<int:id>` and `/users/<name>` both registered (either order),
`/users/42` binds to the integer rule with id=42 and `/users/abc` binds to
the name rule with name="abc". -/
theorem bind_specificity (r1 r2 : Rule) (path m : String)
    (ps1 : List (String × Val))
    (h1 : matchRule r1 (parsePath path) = some ps1)
    (h2 : (matchRule r2 (parsePath path)).isSome = true)
    (hm1 : r1.methods.contains m = true)
    (hw : weightLt (ruleWeight r1) (ruleWeight r2) = true) :
    (bind [r1, r2] path m = BindResult.matched r1.endpoint ps1
      ∧ bind [r2, r1] path m = BindResult.matched r1.endpoint ps1)
    ∧ (bind [usersIntRule, usersNameRule] "/users/42" "GET"
          = BindResult.matched "user_by_id" [("id", Val.natV 42)]
      ∧ bind [usersNameRule, usersIntRule] "/users/42" "GET"
          = BindResult.matched "user_by_id" [("id", Val.natV 42)]
      ∧ bind [usersIntRule, usersNameRule] "/users/abc" "GET"
          = BindResult.matched "user_by_name" [("name", Val.strV "abc")]
      ∧ bind [usersNameRule, usersIntRule] "/users/abc" "GET"
          = BindResult.matched "user_by_name" [("name", Val.strV "abc")]) := by
  constructor
  · have hle := weightLt_le _ _ hw
    have hge := weightLt_not_ge _ _ hw
    have hm : m ∈ r1.methods := by simpa using hm1
    constructor
    · show bindSorted (sortRules [r1, r2]) (parsePath path) m [] none = _
      have hs : sortRules [r1, r2] = [r1, r2] := by
        simp [sortRules, insertRule, hle]
      rw [hs]
      simp [bindSorted, h1, hm]
    · show bindSorted (sortRules [r2, r1]) (parsePath path) m [] none = _
      have hs : sortRules [r2, r1] = [r1, r2] := by
        simp [sortRules, insertRule, hge]
      rw [hs]
      simp [bindSorted, h1, hm]
  · refine ⟨?_, ?_, ?_, ?_⟩ <;> decide

/-- Witness for C5: binding `/users/42` with the name rule registered
before the integer rule still matches the integer rule. -/
theorem bind_specificity_witness :
    bind [usersNameRule, usersIntRule] "/users/42" "GET"
      = BindResult.matched "user_by_id" [("id", Val.natV 42)] :=
  ((bind_specificity usersIntRule usersNameRule "/users/42" "GET"
      [("id", Val.natV 42)] (by decide) (by decide) (by decide) (by decide)).1).2

theorem mem_insertRule (x r : Rule) (l : List Rule) :
    x ∈ insertRule r l ↔ x = r ∨ x ∈ l := by
  induction l with
  | nil => simp [insertRule]
  | cons y ys ih =>
      by_cases hc : weightLe (ruleWeight r) (ruleWeight y) = true
      · simp [insertRule, hc, List.mem_cons]
      · have hc2 : weightLe (ruleWeight r) (ruleWeight y) = false := by
          simpa using hc
        simp only [insertRule, hc2, Bool.false_eq_true, if_false, List.mem_cons, ih]
        tauto

theorem mem_sortRules (x : Rule) (l : List Rule) :
    x ∈ sortRules l ↔ x ∈ l := by
  induction l with
  | nil => simp [sortRules]
  | cons r rest ih => simp [sortRules, mem_insertRule, ih, List.mem_cons]

theorem bindSorted_notFound (l : List Rule) (p : PathReq) (m : String)
    (h : ∀ r ∈ l, matchRule r p = none ∧ slashRedirect r p = false) :
    bindSorted l p m [] none = BindResult.notFound := by
  induction l with
  | nil => rfl
  | cons r rest ih =>
      obtain ⟨h1, h2⟩ := h r (List.mem_cons_self r rest)
      have hrest := ih (fun r2 hr2 => h r2 (List.mem_cons_of_mem _ hr2))
      simpa [bindSorted, h1, h2] using hrest

theorem mergeMethods_nil (ms : List String) : mergeMethods [] ms = ms := by
  simp [mergeMethods]

/-- C7: `bind` classifies every request into exactly one of the four
outcomes Matched, MethodNotAllowed, RedirectRequired, NotFound; when no
rule matches the path (even up to a trailing slash) the result is
NotFound; a rule matching the path but not the method yields
MethodNotAllowed carrying the allowed methods; a rule matching up to a
trailing-slash difference yields RedirectRequired with the corrected path;
concretely: `/missing` against the `/item` map is NotFound, POST against
the GET-only `/item` rule is MethodNotAllowed with allowed={GET}, and
`/shop` against the `/shop/` rule redirects to `/shop/`. -/
theorem bind_outcomes :
    (∀ (rules : List Rule) (path m : String),
        (∃ e ps, bind rules path m = BindResult.matched e ps)
        ∨ (∃ ms, bind rules path m = BindResult.methodNotAllowed ms)
        ∨ (∃ loc, bind rules path m = BindResult.redirectRequired loc)
        ∨ bind rules path m = BindResult.notFound)
    ∧ (∀ (rules : List Rule) (path m : String),
        (∀ r ∈ rules, matchRule r (parsePath path) = none
            ∧ slashRedirect r (parsePath path) = false) →
        bind rules path m = BindResult.notFound)
    ∧ (∀ (r : Rule) (path m : String) (ps : List (String × Val)),
        matchRule r (parsePath path) = some ps →
        r.methods.contains m = false → r.methods ≠ [] →
        bind [r] path m = BindResult.methodNotAllowed r.methods)
    ∧ (∀ (r : Rule) (path m : String),
        matchRule r (parsePath path) = none →
        slashRedirect r (parsePath path) = true →
        bind [r] path m
          = BindResult.redirectRequired (correctedPath r (parsePath path)))
    ∧ bind [itemRule] "/missing" "GET" = BindResult.notFound
    ∧ bind [itemRule] "/item" "POST" = BindResult.methodNotAllowed ["GET"]
    ∧ bind [shopRule] "/shop" "GET" = BindResult.redirectRequired "/shop/" := by
  refine ⟨?_, ?_, ?_, ?_, by decide, by decide, by decide⟩
  · intro rules path m
    cases h : bind rules path m with
    | matched e ps => exact Or.inl ⟨e, ps, rfl⟩
    | methodNotAllowed ms => exact Or.inr (Or.inl ⟨ms, rfl⟩)
    | redirectRequired loc => exact Or.inr (Or.inr (Or.inl ⟨loc, rfl⟩))
    | notFound => exact Or.inr (Or.inr (Or.inr rfl))
  · intro rules path m h
    show bindSorted (sortRules rules) (parsePath path) m [] none = _
    exact bindSorted_notFound _ _ _
      (fun r hr => h r ((mem_sortRules r rules).mp hr))
  · intro r path m ps h1 h2 h3
    have hgoal : bindSorted [r] (parsePath path) m [] none
        = BindResult.methodNotAllowed r.methods := by
      cases hms : r.methods with
      | nil => exact absurd hms h3
      | cons a as =>
          rw [hms] at h2
          simp only [bindSorted, h1, h2, Bool.false_eq_true, if_false,
            mergeMethods_nil, hms]
    exact hgoal
  · intro r path m h1 h2
    have hgoal : bindSorted [r] (parsePath path) m [] none
        = BindResult.redirectRequired (correctedPath r (parsePath path)) := by
      simp [bindSorted, h1, h2]
    exact hgoal

/-- Witness for C7: the no-matching-rule hypothesis holds for `/missing`
against the `/item` map, which therefore yields NotFound. -/
theorem bind_outcomes_witness :
    bind [itemRule] "/missing" "GET" = BindResult.notFound :=
  bind_outcomes.2.1 [itemRule] "/missing" "GET" (by decide)

theorem digitVal_digitChar (d : Nat) (h : d < 10) :
    digitVal (digitChar d) = some d := by
  interval_cases d <;> decide

theorem digitChar_ne_slash (d : Nat) : digitChar d ≠ '/' := by
  unfold digitChar
  have hk : d % 10 < 10 := Nat.mod_lt _ (by omega)
  generalize d % 10 = k at hk
  interval_cases k <;> decide

theorem natDigitsGo_append (fuel : Nat) :
    ∀ (n : Nat) (acc : List Char),
      natDigitsGo fuel n acc = natDigitsGo fuel n [] ++ acc := by
  induction fuel with
  | zero => intro n acc; rfl
  | succ fuel ih =>
      intro n acc
      by_cases h : n < 10
      · simp [natDigitsGo, h]
      · simp only [natDigitsGo, h, if_false]
        rw [ih (n / 10) (digitChar (n % 10) :: acc),
          ih (n / 10) [digitChar (n % 10)]]
        simp

theorem natDigitsGo_ne_nil (fuel n : Nat) : natDigitsGo fuel n [] ≠ [] := by
  cases fuel with
  | zero => simp [natDigitsGo]
  | succ fuel =>
      by_cases h : n < 10
      · simp [natDigitsGo, h]
      · simp only [natDigitsGo, h, if_false]
        rw [natDigitsGo_append]
        simp

theorem natDigitsGo_ne_slash (fuel : Nat) :
    ∀ n, ∀ c ∈ natDigitsGo fuel n [], c ≠ '/' := by
  induction fuel with
  | zero =>
      intro n c hc
      simp [natDigitsGo] at hc
      subst hc
      exact digitChar_ne_slash _
  | succ fuel ih =>
      intro n c hc
      by_cases h : n < 10
      · simp [natDigitsGo, h] at hc
        subst hc
        exact digitChar_ne_slash _
      · simp only [natDigitsGo, h, if_false] at hc
        rw [natDigitsGo_append] at hc
        rcases List.mem_append.mp hc with h1 | h2
        · exact ih _ c h1
        · simp at h2
          subst h2
          exact digitChar_ne_slash _

theorem parseNatCore_append (xs ys : List Char) (a : Nat) :
    parseNatCore (xs ++ ys) a =
      match parseNatCore xs a with
      | some r => parseNatCore ys r
      | none => none := by
  induction xs generalizing a with
  | nil => rfl
  | cons c cs ih =>
      cases hd : digitVal c with
      | none => simp [parseNatCore, hd]
      | some d => simp [parseNatCore, hd, ih]

theorem parseNatCore_natDigitsGo (fuel : Nat) :
    ∀ n, n ≤ fuel → ∀ a,
      parseNatCore (natDigitsGo fuel n []) a
        = some (a * 10 ^ (natDigitsGo fuel n []).length + n) := by
  induction fuel with
  | zero =>
      intro n hn a
      interval_cases n
      simp [natDigitsGo, parseNatCore, digitVal, digitChar]
  | succ fuel ih =>
      intro n hn a
      by_cases h : n < 10
      · simp only [natDigitsGo, h, if_true]
        simp [parseNatCore, digitVal_digitChar n h]
      · have hio : n / 10 ≤ fuel := by
          have hlt : n / 10 < n := Nat.div_lt_self (by omega) (by omega)
          omega
        simp only [natDigitsGo, h, if_false]
        rw [natDigitsGo_append fuel (n / 10) [digitChar (n % 10)]]
        rw [parseNatCore_append]
        rw [ih (n / 10) hio a]
        have hm : n % 10 < 10 := Nat.mod_lt _ (by omega)
        simp only [parseNatCore, digitVal_digitChar _ hm,
          List.length_append, List.length_cons, List.length_nil]
        congr 1
        rw [pow_succ]
        have hd : n / 10 * 10 + n % 10 = n := by omega
        calc (a * 10 ^ (natDigitsGo fuel (n / 10) []).length + n / 10) * 10 + n % 10
            = a * (10 ^ (natDigitsGo fuel (n / 10) []).length * 10)
              + (n / 10 * 10 + n % 10) := by ring
          _ = a * (10 ^ (natDigitsGo fuel (n / 10) []).length * 10) + n := by rw [hd]

theorem parseNat_natDigits (n : Nat) :
    parseNatChars (natDigits n) = some n := by
  have h := parseNatCore_natDigitsGo n n (Nat.le_refl n) 0
  have hne : natDigits n ≠ [] := natDigitsGo_ne_nil n n
  unfold parseNatChars
  simp only [hne, if_false]
  unfold natDigits
  simpa using h

theorem splitSlash_ne_nil (cs : List Char) : splitSlash cs ≠ [] := by
  cases cs with
  | nil => simp [splitSlash]
  | cons c cs =>
      simp only [splitSlash]
      by_cases h : c = '/'
      · simp [h]
      · simp only [h, if_false]
        cases hr : splitSlash cs <;> simp

theorem splitSlash_parts_ne_slash (cs : List Char) :
    ∀ p ∈ splitSlash cs, ∀ c ∈ p, c ≠ '/' := by
  induction cs with
  | nil => simp [splitSlash]
  | cons c cs ih =>
      by_cases h : c = '/'
      · intro p hp c2 hc2
        simp only [splitSlash, h, if_true] at hp
        rcases List.mem_cons.mp hp with h1 | h2
        · subst h1; cases hc2
        · exact ih p h2 c2 hc2
      · intro p hp c2 hc2
        simp only [splitSlash, h, if_false] at hp
        cases hr : splitSlash cs with
        | nil => exact absurd hr (splitSlash_ne_nil cs)
        | cons q qs =>
            rw [hr] at hp
            rcases List.mem_cons.mp hp with h1 | h2
            · subst h1
              rcases List.mem_cons.mp hc2 with h3 | h4
              · subst h3; exact h
              · exact ih q (hr ▸ List.mem_cons_self q qs) c2 h4
            · exact ih p (hr ▸ List.mem_cons_of_mem q h2) c2 hc2

theorem splitSlash_append_slash (xs : List Char) (ys : List Char)
    (h : ∀ c ∈ xs, c ≠ '/') :
    splitSlash (xs ++ '/' :: ys) = xs :: splitSlash ys := by
  induction xs with
  | nil => simp [splitSlash]
  | cons c cs ih =>
      have hc : c ≠ '/' := h c (List.mem_cons_self c cs)
      have hrest := ih (fun c2 hc2 => h c2 (List.mem_cons_of_mem _ hc2))
      simp only [List.cons_append, splitSlash, hc, if_false]
      have hrest2 : splitSlash (cs.append ('/' :: ys)) = cs :: splitSlash ys := hrest
      rw [hrest2]

theorem splitSlash_no_slash (xs : List Char) (h : ∀ c ∈ xs, c ≠ '/') :
    splitSlash xs = [xs] := by
  induction xs with
  | nil => rfl
  | cons c cs ih =>
      have hc : c ≠ '/' := h c (List.mem_cons_self c cs)
      have hrest := ih (fun c2 hc2 => h c2 (List.mem_cons_of_mem _ hc2))
      simp [splitSlash, hrest, hc]

theorem splitSlash_append_trailing (cs : List Char) :
    splitSlash (cs ++ ['/']) = splitSlash cs ++ [[]] := by
  induction cs with
  | nil => rfl
  | cons c cs ih =>
      by_cases h : c = '/'
      · simp [splitSlash, h, ih]
      · simp only [List.cons_append, splitSlash, h, if_false]
        have ih2 : splitSlash (cs.append ['/']) = splitSlash cs ++ [[]] := ih
        rw [ih2]
        cases hr : splitSlash cs with
        | nil => exact absurd hr (splitSlash_ne_nil cs)
        | cons p ps => simp

theorem splitSlash_joinPartsC (parts : List (List Char))
    (hne : parts ≠ []) (h : ∀ p ∈ parts, ∀ c ∈ p, c ≠ '/') :
    splitSlash (joinPartsC parts) = parts := by
  induction parts with
  | nil => exact absurd rfl hne
  | cons p rest ih =>
      cases rest with
      | nil =>
          show splitSlash (joinPartsC [p]) = [p]
          have := splitSlash_no_slash p (h p (List.mem_cons_self p []))
          simpa [joinPartsC] using this
      | cons q rest2 =>
          have hp := h p (List.mem_cons_self p (q :: rest2))
          have hjoin : joinPartsC (p :: q :: rest2) = p ++ '/' :: joinPartsC (q :: rest2) := rfl
          rw [hjoin, splitSlash_append_slash p _ hp]
          rw [ih (by simp) (fun x hx => h x (List.mem_cons_of_mem _ hx))]

theorem joinPartsC_splitSlash (cs : List Char) :
    joinPartsC (splitSlash cs) = cs := by
  induction cs with
  | nil => rfl
  | cons c cs ih =>
      by_cases h : c = '/'
      · subst h
        cases hr : splitSlash cs with
        | nil => exact absurd hr (splitSlash_ne_nil cs)
        | cons p ps =>
            rw [hr] at ih
            show joinPartsC (splitSlash ('/' :: cs)) = '/' :: cs
            simp only [splitSlash, if_pos rfl, hr]
            show joinPartsC ([] :: p :: ps) = '/' :: cs
            show ([] : List Char) ++ '/' :: joinPartsC (p :: ps) = '/' :: cs
            simp [ih]
      · cases hr : splitSlash cs with
        | nil => exact absurd hr (splitSlash_ne_nil cs)
        | cons p ps =>
            rw [hr] at ih
            show joinPartsC (splitSlash (c :: cs)) = c :: cs
            simp only [splitSlash, h, if_false, hr]
            cases ps with
            | nil =>
                show joinPartsC [c :: p] = c :: cs
                show c :: p = c :: cs
                simp only [joinPartsC] at ih
                rw [ih]
            | cons p2 ps2 =>
                show joinPartsC ((c :: p) :: p2 :: ps2) = c :: cs
                show (c :: p) ++ '/' :: joinPartsC (p2 :: ps2) = c :: cs
                have ih2 : p ++ '/' :: joinPartsC (p2 :: ps2) = cs := ih
                simp [← ih2]

theorem string_mk_data (s : String) : String.mk s.data = s := rfl

theorem convParse_convToUrl (conv : Conv) (v : Val) (s1 : List Char)
    (h : convToUrlChars conv v = some s1) :
    convParseChars conv s1 = some v := by
  cases conv with
  | intConv =>
      cases v with
      | natV n =>
          simp only [convToUrlChars, Option.some.injEq] at h
          subst h
          simp [convParseChars, parseNat_natDigits]
      | strV s => simp [convToUrlChars] at h
  | strConv =>
      cases v with
      | natV n => simp [convToUrlChars] at h
      | strV s =>
          simp only [convToUrlChars] at h
          split at h
          · rename_i hcond
            cases h
            have hne : s.data ≠ [] := hcond.1
            simp only [convParseChars, hne, if_false]
          · cases h

theorem convToUrl_wf (conv : Conv) (v : Val) (s1 : List Char)
    (h : convToUrlChars conv v = some s1) :
    s1 ≠ [] ∧ ∀ c ∈ s1, c ≠ '/' := by
  cases conv with
  | intConv =>
      cases v with
      | natV n =>
          simp only [convToUrlChars, Option.some.injEq] at h
          subst h
          exact ⟨natDigitsGo_ne_nil n n, natDigitsGo_ne_slash n n⟩
      | strV s => simp [convToUrlChars] at h
  | strConv =>
      cases v with
      | natV n => simp [convToUrlChars] at h
      | strV s =>
          simp only [convToUrlChars] at h
          split at h
          · rename_i hcond
            cases h
            refine ⟨hcond.1, ?_⟩
            have h2 := hcond.2
            simp only [List.all_eq_true] at h2
            intro c hc
            have := h2 c hc
            simpa using this
          · cases h

theorem buildSegs_length (segs : List Seg) :
    ∀ (vs : List Val) (parts : List (List Char)),
      buildSegs segs vs = some parts → parts.length = segs.length := by
  induction segs with
  | nil =>
      intro vs parts hb
      cases vs with
      | nil => simp [buildSegs] at hb; subst hb; rfl
      | cons v vs => simp [buildSegs] at hb
  | cons sg rest ih =>
      intro vs parts hb
      cases sg with
      | static lit =>
          simp only [buildSegs] at hb
          cases hbr : buildSegs rest vs with
          | none => rw [hbr] at hb; cases hb
          | some ps2 =>
              rw [hbr] at hb
              simp only [Option.map_some', Option.some.injEq] at hb
              subst hb
              simp [ih vs ps2 hbr]
      | var name conv =>
          cases vs with
          | nil => simp [buildSegs] at hb
          | cons v vs2 =>
              simp only [buildSegs] at hb
              cases hcv : convToUrlChars conv v with
              | none => rw [hcv] at hb; cases hb
              | some s1 =>
                  rw [hcv] at hb
                  cases hbr : buildSegs rest vs2 with
                  | none => rw [hbr] at hb; cases hb
                  | some ps2 =>
                      rw [hbr] at hb
                      simp only [Option.map_some', Option.some.injEq] at hb
                      subst hb
                      simp [ih vs2 ps2 hbr]

theorem buildSegs_parts_wf (segs : List Seg) :
    ∀ (vs : List Val) (parts : List (List Char)),
      buildSegs segs vs = some parts → segs.all segWF = true →
      ∀ p ∈ parts, p ≠ [] ∧ ∀ c ∈ p, c ≠ '/' := by
  induction segs with
  | nil =>
      intro vs parts hb _
      cases vs with
      | nil => simp [buildSegs] at hb; subst hb; simp
      | cons v vs => simp [buildSegs] at hb
  | cons sg rest ih =>
      intro vs parts hb hwf
      have hwf1 : segWF sg = true := by
        simp only [List.all_cons, Bool.and_eq_true] at hwf
        exact hwf.1
      have hwfr : rest.all segWF = true := by
        simp only [List.all_cons, Bool.and_eq_true] at hwf
        exact hwf.2
      cases sg with
      | static lit =>
          simp only [buildSegs] at hb
          cases hbr : buildSegs rest vs with
          | none => rw [hbr] at hb; cases hb
          | some ps2 =>
              rw [hbr] at hb
              simp only [Option.map_some', Option.some.injEq] at hb
              subst hb
              intro p hp
              rcases List.mem_cons.mp hp with h1 | h2
              · subst h1
                simp only [segWF, Bool.and_eq_true] at hwf1
                constructor
                · intro hemp
                  rw [hemp] at hwf1
                  simp at hwf1
                · intro c hc
                  have h3 := hwf1.2
                  simp only [List.all_eq_true] at h3
                  have := h3 c hc
                  simpa using this
              · exact ih vs ps2 hbr hwfr p h2
      | var name conv =>
          cases vs with
          | nil => simp [buildSegs] at hb
          | cons v vs2 =>
              simp only [buildSegs] at hb
              cases hcv : convToUrlChars conv v with
              | none => rw [hcv] at hb; cases hb
              | some s1 =>
                  rw [hcv] at hb
                  cases hbr : buildSegs rest vs2 with
                  | none => rw [hbr] at hb; cases hb
                  | some ps2 =>
                      rw [hbr] at hb
                      simp only [Option.map_some', Option.some.injEq] at hb
                      subst hb
                      intro p hp
                      rcases List.mem_cons.mp hp with h1 | h2
                      · subst h1
                        exact convToUrl_wf conv v p hcv
                      · exact ih vs2 ps2 hbr hwfr p h2

theorem buildSegs_nil_inv (segs : List Seg) (vs : List Val)
    (hb : buildSegs segs vs = some []) : segs = [] ∧ vs = [] := by
  cases segs with
  | nil =>
      cases vs with
      | nil => exact ⟨rfl, rfl⟩
      | cons v vs => simp [buildSegs] at hb
  | cons sg rest =>
      cases sg with
      | static lit =>
          simp only [buildSegs] at hb
          cases hbr : buildSegs rest vs with
          | none => rw [hbr] at hb; cases hb
          | some ps2 => rw [hbr] at hb; simp at hb
      | var name conv =>
          cases vs with
          | nil => simp [buildSegs] at hb
          | cons v vs2 =>
              simp only [buildSegs] at hb
              cases hcv : convToUrlChars conv v with
              | none => rw [hcv] at hb; cases hb
              | some s1 =>
                  rw [hcv] at hb
                  cases hbr : buildSegs rest vs2 with
                  | none => rw [hbr] at hb; cases hb
                  | some ps2 => rw [hbr] at hb; simp at hb

theorem matchSegs_buildSegs (segs : List Seg) :
    ∀ (vs : List Val) (parts : List (List Char)),
      buildSegs segs vs = some parts →
      matchSegs segs parts = some ((varNames segs).zip vs) := by
  induction segs with
  | nil =>
      intro vs parts hb
      cases vs with
      | nil => simp [buildSegs] at hb; subst hb; rfl
      | cons v vs => simp [buildSegs] at hb
  | cons sg rest ih =>
      intro vs parts hb
      cases sg with
      | static lit =>
          simp only [buildSegs] at hb
          cases hbr : buildSegs rest vs with
          | none => rw [hbr] at hb; cases hb
          | some ps2 =>
              rw [hbr] at hb
              simp only [Option.map_some', Option.some.injEq] at hb
              subst hb
              simp only [matchSegs, if_pos rfl]
              rw [ih vs ps2 hbr]
              rfl
      | var name conv =>
          cases vs with
          | nil => simp [buildSegs] at hb
          | cons v vs2 =>
              simp only [buildSegs] at hb
              cases hcv : convToUrlChars conv v with
              | none => rw [hcv] at hb; cases hb
              | some s1 =>
                  rw [hcv] at hb
                  cases hbr : buildSegs rest vs2 with
                  | none => rw [hbr] at hb; cases hb
                  | some ps2 =>
                      rw [hbr] at hb
                      simp only [Option.map_some', Option.some.injEq] at hb
                      subst hb
                      have hcp := convParse_convToUrl conv v s1 hcv
                      simp only [matchSegs, hcp]
                      rw [ih vs2 ps2 hbr]
                      rfl

theorem parsePathChars_slash_cons (X : List Char) :
    parsePathChars ('/' :: X)
      = if (splitSlash X).getLast? = some ([] : List Char) then
          { segs := (splitSlash X).dropLast, slash := true }
        else
          { segs := splitSlash X, slash := false } := rfl

theorem parsePath_renderPathC (parts : List (List Char)) (slash : Bool)
    (hne : parts ≠ []) (hwf : ∀ p ∈ parts, p ≠ [] ∧ ∀ c ∈ p, c ≠ '/') :
    parsePathChars (renderPathC parts slash) = { segs := parts, slash := slash } := by
  have hns : ∀ p ∈ parts, ∀ c ∈ p, c ≠ '/' := fun p hp => (hwf p hp).2
  cases slash with
  | true =>
      have hrender : renderPathC parts true = '/' :: (joinPartsC parts ++ ['/']) := by
        cases hp : parts with
        | nil => exact absurd hp hne
        | cons p0 rest0 => rfl
      rw [hrender, parsePathChars_slash_cons]
      rw [splitSlash_append_trailing, splitSlash_joinPartsC parts hne hns]
      simp [List.getLast?_concat, List.dropLast_concat]
  | false =>
      have hrender : renderPathC parts false = '/' :: joinPartsC parts := by
        cases hp : parts with
        | nil => exact absurd hp hne
        | cons p0 rest0 => simp [renderPathC]
      rw [hrender, parsePathChars_slash_cons]
      rw [splitSlash_joinPartsC parts hne hns]
      cases hgl : parts.getLast? with
      | none => exact absurd (List.getLast?_eq_none_iff.mp hgl) hne
      | some q =>
          have hq : q ≠ [] := (hwf q (List.mem_of_getLast?_eq_some hgl)).1
          rw [if_neg (by simp [hgl, hq])]

theorem matchRule_build (r : Rule) (vs : List Val) (pv : Option String)
    (url : String) (hwf : wellFormedRule r = true)
    (hb : build r vs pv = some url) :
    matchRule r (parsePath url) = some (expectedParams r vs pv) := by
  have hwfsegs : r.segs.all segWF = true := by
    simp only [wellFormedRule, Bool.and_eq_true] at hwf
    exact hwf.1
  cases htail : r.tail with
  | none =>
      cases pv with
      | some s3 => simp [build, htail] at hb
      | none =>
          simp only [build, htail] at hb
          cases hbs : buildSegs r.segs vs with
          | none => rw [hbs] at hb; cases hb
          | some parts =>
              rw [hbs] at hb
              simp only [Option.map_some', Option.some.injEq] at hb
              subst hb
              have hdata : parsePath (String.mk (renderPathC parts r.slash))
                  = parsePathChars (renderPathC parts r.slash) := rfl
              rw [hdata]
              cases parts with
              | nil =>
                  obtain ⟨hsegs, hvs⟩ := buildSegs_nil_inv r.segs vs hbs
                  have hslash : r.slash = true := by
                    simp only [wellFormedRule, hsegs, htail, Bool.and_eq_true] at hwf
                    exact hwf.2
                  have hpp : parsePathChars (renderPathC [] r.slash)
                      = { segs := [], slash := true } := rfl
                  rw [hpp]
                  simp [matchRule, htail, hsegs, hslash, hvs, expectedParams,
                    varNames, matchSegs]
              | cons p0 rest0 =>
                  have hwfp := buildSegs_parts_wf r.segs vs (p0 :: rest0) hbs hwfsegs
                  rw [parsePath_renderPathC (p0 :: rest0) r.slash (by simp) hwfp]
                  simp only [matchRule, htail, if_true]
                  rw [matchSegs_buildSegs r.segs vs (p0 :: rest0) hbs]
                  simp [expectedParams, htail]
  | some name =>
      cases pv with
      | none => simp [build, htail] at hb
      | some s3 =>
          simp only [build, htail] at hb
          split at hb
          · rename_i hacc
            cases hbs : buildSegs r.segs vs with
            | none => rw [hbs] at hb; cases hb
            | some parts =>
                rw [hbs] at hb
                simp only [Option.map_some', Option.some.injEq] at hb
                subst hb
                have hblen : parts.length = r.segs.length :=
                  buildSegs_length r.segs vs parts hbs
                have hcne : splitSlash s3.data ≠ [] := splitSlash_ne_nil s3.data
                have hcompwf : ∀ p ∈ splitSlash s3.data, p ≠ [] ∧ ∀ c ∈ p, c ≠ '/' := by
                  intro p hp
                  constructor
                  · simp only [acceptPathVal, List.all_eq_true] at hacc
                    have := hacc p hp
                    simpa using this
                  · exact splitSlash_parts_ne_slash s3.data p hp
                have hallwf : ∀ p ∈ parts ++ splitSlash s3.data,
                    p ≠ [] ∧ ∀ c ∈ p, c ≠ '/' := by
                  intro p hp
                  rcases List.mem_append.mp hp with h1 | h2
                  · exact buildSegs_parts_wf r.segs vs parts hbs hwfsegs p h1
                  · exact hcompwf p h2
                have hallne : parts ++ splitSlash s3.data ≠ [] := by
                  intro hcontra
                  rw [List.append_eq_nil] at hcontra
                  exact hcne hcontra.2
                have hdata : parsePath
                      (String.mk (renderPathC (parts ++ splitSlash s3.data) r.slash))
                    = parsePathChars (renderPathC (parts ++ splitSlash s3.data) r.slash) :=
                  rfl
                rw [hdata]
                rw [parsePath_renderPathC (parts ++ splitSlash s3.data) r.slash
                  hallne hallwf]
                simp only [matchRule, htail]
                have hlen : r.segs.length < (parts ++ splitSlash s3.data).length := by
                  rw [List.length_append, ← hblen]
                  have := List.length_pos.mpr hcne
                  omega
                rw [if_pos ⟨trivial, hlen⟩]
                rw [List.take_left' hblen, List.drop_left' hblen]
                rw [matchSegs_buildSegs r.segs vs parts hbs]
                rw [joinPartsC_splitSlash s3.data, string_mk_data]
                simp [expectedParams, htail]
          · cases hb

/-- C6: round-trip — for a well-formed rule and values accepted by its
converters, `build(endpoint, v)` followed by `bind` on the resulting path
matches that rule's endpoint and recovers the values exactly (the Integer
converter re-serializes canonically, without leading zeros, so parsing its
serialization returns the same number). -/
theorem build_bind_roundtrip (r : Rule) (vs : List Val) (pv : Option String)
    (url m : String)
    (hwf : wellFormedRule r = true)
    (hm : r.methods.contains m = true)
    (hb : build r vs pv = some url) :
    bind [r] url m = BindResult.matched r.endpoint (expectedParams r vs pv) := by
  have hmr := matchRule_build r vs pv url hwf hb
  have hmem : m ∈ r.methods := by simpa using hm
  show bindSorted (sortRules [r]) (parsePath url) m [] none = _
  have hs : sortRules [r] = [r] := rfl
  rw [hs]
  simp [bindSorted, hmr, hmem]

/-- Witness for C6: building the integer rule with id 42 produces
"/users/42", and binding it back recovers id = 42. -/
theorem build_bind_roundtrip_witness :
    bind [usersIntRule] "/users/42" "GET"
      = BindResult.matched "user_by_id"
          (expectedParams usersIntRule [Val.natV 42] none) :=
  build_bind_roundtrip usersIntRule [Val.natV 42] none "/users/42" "GET"
    (by decide) (by decide) (by decide)

end Flask
